import Mathlib

/-!
Verification of the retrieval-augmented indexing and query pipeline of the
Data-Research-Agent repository (src/rag/ingest.py, src/rag/rag.py, src/app.py).

The Python sources are shallowly embedded: text is `List Char`, embedding
vectors are `List Int`, the on-disk FAISS index is an explicit state value,
and the external collaborators (PDF loader, OpenAI embedder, chat model) are
function parameters.  Fallible external calls return `Except`/are reflected
in an error component, mirroring Python exception propagation.
-/

namespace DRAgent

/-- A page-level document as produced by the Document Loader (`PyPDFLoader`):
raw page text plus provenance metadata (`source`, `page`). -/
structure Doc where
  pageContent : List Char
  source : String
  page : Nat
deriving DecidableEq

/-- A chunk stored in the vector index: the split text, its provenance,
and its embedding vector. -/
structure Chunk where
  text : List Char
  source : String
  page : Nat
  embedding : List Int
deriving DecidableEq

instance : Inhabited Chunk := ⟨⟨[], "", 0, []⟩⟩

/-- Errors of the ingestion pipeline: a Document Loader failure
(e.g. an unparsable PDF) or an Embedder service failure. -/
inductive IngestErr where
  | loaderError (msg : String)
  | serviceError (msg : String)
deriving DecidableEq

/-- The on-disk state relevant to `add_pdfs_to_index`: whether the index
directory exists, and the persisted FAISS index contents (`index.faiss` +
`index.pkl`), `none` when no index file has been written. -/
structure IndexFS where
  indexDirExists : Bool
  index : Option (List Chunk)
deriving DecidableEq

/-- `ensure_index` (src/rag/ingest.py line 10-11): `index_dir.mkdir(parents=True,
exist_ok=True)` — ensures the index directory exists and changes nothing else. -/
def ensure_index (fs : IndexFS) : IndexFS :=
  { fs with indexDirExists := true }

/-- `_load_pdfs` (src/rag/ingest.py lines 14-18): for each path, run the
loader and yield its page documents in order.  The Python generator has no
try/except, so the first loader exception propagates; forcing it with
`list(...)` yields either the concatenation of all page lists or the first
error. -/
def load_pdfs (loader : String → Except String (List Doc)) :
    List String → Except String (List Doc)
  | [] => .ok []
  | p :: ps => do
    let docs ← loader p
    let rest ← load_pdfs loader ps
    pure (docs ++ rest)

/-- Boundary test: position `p` of `t` is right after a paragraph break,
i.e. the two characters before `p` are `"\n\n"`. -/
def paraBreakAt (t : List Char) (p : Nat) : Bool :=
  decide (2 ≤ p) && decide ((t.drop (p - 2)).take 2 = ['\n', '\n'])

/-- Boundary test: position `p` of `t` is right after a line break. -/
def lineBreakAt (t : List Char) (p : Nat) : Bool :=
  decide (1 ≤ p) && decide ((t.drop (p - 1)).take 1 = ['\n'])

/-- Boundary test: position `p` of `t` is right after a space (word boundary). -/
def wordBreakAt (t : List Char) (p : Nat) : Bool :=
  decide (1 ≤ p) && decide ((t.drop (p - 1)).take 1 = [' '])

/-- Largest `p` with `1 ≤ p ≤ bound` satisfying `pred`, if any. -/
def findLargest (pred : Nat → Bool) : Nat → Option Nat
  | 0 => none
  | n + 1 => if pred (n + 1) then some (n + 1) else findLargest pred n

/-- Modelled from the spec: the split-point choice of the Chunker
(langchain's `RecursiveCharacterTextSplitter`, which is not part of this
repository's sources; src/rag/ingest.py only configures it with separators
`["\n\n", "\n", " ", ""]`).  The cut position within the size budget is the
highest-priority boundary available: the last paragraph break within
`chunkSize`, else the last line break, else the last word boundary, else the
raw character position `chunkSize`. -/
def chooseSplit (chunkSize : Nat) (t : List Char) : Nat :=
  match findLargest (fun p => paraBreakAt t p) chunkSize with
  | some p => p
  | none =>
    match findLargest (fun p => lineBreakAt t p) chunkSize with
    | some p => p
    | none =>
      match findLargest (fun p => wordBreakAt t p) chunkSize with
      | some p => p
      | none => chunkSize

/-- Modelled from the spec: the Chunker (langchain's
`RecursiveCharacterTextSplitter`, not in this repository's sources).  Text
that fits the budget is one chunk; otherwise a chunk is cut at the
highest-priority boundary within the budget and splitting continues
`chunkOverlap` units before that cut (clamped so the position always
advances), producing overlapping chunks. -/
def splitText (chunkSize chunkOverlap : Nat) (t : List Char) : List (List Char) :=
  if t.length ≤ chunkSize then [t]
  else
    let p := chooseSplit chunkSize t
    let step := max (p - chunkOverlap) 1
    t.take p :: splitText chunkSize chunkOverlap (t.drop step)
termination_by t.length
decreasing_by
  simp only [List.length_drop]
  omega

/-- Source-position spans `(start, length)` of the chunks produced by
`splitText`, with `start0` the position of `t` in the original text. -/
def splitSpans (chunkSize chunkOverlap : Nat) (t : List Char) (start0 : Nat) :
    List (Nat × Nat) :=
  if t.length ≤ chunkSize then [(start0, t.length)]
  else
    let p := chooseSplit chunkSize t
    let step := max (p - chunkOverlap) 1
    (start0, p) :: splitSpans chunkSize chunkOverlap (t.drop step) (start0 + step)
termination_by t.length
decreasing_by
  simp only [List.length_drop]
  omega

/-- `_split_docs` (src/rag/ingest.py lines 21-25): split every document's
text with the configured splitter; each piece keeps the document's
metadata.  Defaults: `chunk_size=1000`, `chunk_overlap=150`. -/
def split_docs (documents : List Doc) (chunkSize : Nat := 1000)
    (chunkOverlap : Nat := 150) : List Doc :=
  documents.flatMap fun d =>
    (splitText chunkSize chunkOverlap d.pageContent).map fun t =>
      { d with pageContent := t }

/-- Embedding of a batch of split documents, as performed inside
`FAISS.from_documents` / `FAISS.add_documents` via `OpenAIEmbeddings`:
every text is embedded in order; the first Embedder failure aborts the
whole batch with no partial result. -/
def embed_docs (embed : List Char → Except String (List Int)) :
    List Doc → Except String (List Chunk)
  | [] => .ok []
  | d :: ds => do
    let v ← embed d.pageContent
    let rest ← embed_docs embed ds
    pure (⟨d.pageContent, d.source, d.page, v⟩ :: rest)

/-- `add_pdfs_to_index` (src/rag/ingest.py lines 32-48).  State-passing
embedding of the Python function: `ensure_index`, load all pages (first
loader exception propagates), return early if no documents, split, then
either load the existing persisted index, embed-and-append and save, or
build a fresh index from the embedded documents and save.  The second
component is the exception that escaped, if any; the first is the resulting
on-disk state (an escaped exception leaves the index file untouched since
`save_local` is only reached on success). -/
def add_pdfs_to_index (loader : String → Except String (List Doc))
    (embed : List Char → Except String (List Int))
    (pdf_paths : List String) (fs : IndexFS) : IndexFS × Option IngestErr :=
  let fs1 := ensure_index fs
  match load_pdfs loader pdf_paths with
  | .error e => (fs1, some (.loaderError e))
  | .ok raw_docs =>
    if raw_docs.isEmpty then (fs1, none)
    else
      let docs := split_docs raw_docs
      match fs1.index with
      | some existing =>
        match embed_docs embed docs with
        | .error e => (fs1, some (.serviceError e))
        | .ok newChunks => ({ fs1 with index := some (existing ++ newChunks) }, none)
      | none =>
        match embed_docs embed docs with
        | .error e => (fs1, some (.serviceError e))
        | .ok newChunks => ({ fs1 with index := some newChunks }, none)

/-- The persisted form of an index (the `index.faiss` vector file plus the
`index.pkl` docstore written by `save_local`): parallel lists of embedding
vectors, texts and provenance fields. -/
structure PersistedIndex where
  vectors : List (List Int)
  texts : List (List Char)
  sources : List String
  pages : List Nat
deriving DecidableEq

/-- Modelled from the spec: FAISS `save_local` (not in this repository's
sources; called at src/rag/ingest.py lines 45 and 48).  Persisting writes
every chunk's embedding, text and provenance losslessly. -/
def save_local (idx : List Chunk) : PersistedIndex :=
  ⟨idx.map (·.embedding), idx.map (·.text), idx.map (·.source), idx.map (·.page)⟩

/-- Modelled from the spec: FAISS `load_local` (not in this repository's
sources; called at src/rag/rag.py line 21 and src/rag/ingest.py line 43).
Loading reassembles the persisted parallel lists into chunks. -/
def load_local (p : PersistedIndex) : List Chunk :=
  (((p.vectors.zip p.texts).zip p.sources).zip p.pages).map
    fun x => ⟨x.1.1.2, x.1.2, x.2, x.1.1.1⟩

/-- Squared Euclidean distance between two vectors (componentwise on the
common length). -/
def l2sq (q v : List Int) : Int :=
  ((q.zip v).map fun a => (a.1 - a.2) ^ 2).sum

/-- Modelled from the spec: the similarity score used for ranking — the
negated squared L2 distance, the ranking-equivalent form of the metric of
the FAISS flat index built by `FAISS.from_documents` (higher is more
similar). -/
def similarity (q v : List Int) : Int := - l2sq q v

/-- The ranking relation on chunk positions of an index for a query vector:
strictly more similar, or equally similar and inserted no later. -/
def rankRel (idx : List Chunk) (q : List Int) (i j : Nat) : Prop :=
  similarity q ((idx.getD i default).embedding) >
      similarity q ((idx.getD j default).embedding) ∨
    (similarity q ((idx.getD i default).embedding) =
        similarity q ((idx.getD j default).embedding) ∧ i ≤ j)

instance (idx : List Chunk) (q : List Int) : DecidableRel (rankRel idx q) :=
  fun i j => by unfold rankRel; exact inferInstance

instance (idx : List Chunk) (q : List Int) : IsTotal Nat (rankRel idx q) where
  total i j := by unfold rankRel; omega

instance (idx : List Chunk) (q : List Int) : IsTrans Nat (rankRel idx q) where
  trans i j k hij hjk := by unfold rankRel at *; omega

/-- The chunk positions of `idx` ranked for query `q`: positions sorted by
descending similarity, ties in favor of the earlier-inserted chunk. -/
def rankList (idx : List Chunk) (q : List Int) : List Nat :=
  List.insertionSort (rankRel idx q) (List.range idx.length)

/-- Modelled from the spec: nearest-neighbor search of the FAISS index (not
in this repository's sources; reached through `vs.as_retriever(search_kwargs=k)`
at src/rag/rag.py line 22): the top `k` chunks by descending similarity to
the query vector, ties broken by insertion order. -/
def search (idx : List Chunk) (q : List Int) (k : Nat) : List Chunk :=
  ((rankList idx q).take k).map fun i => idx.getD i default

/-- A chat message as built in `answer_question` (src/rag/rag.py 34-37). -/
structure ChatMessage where
  role : String
  content : String
deriving DecidableEq

/-- The generation service's response: `ChatOpenAI.invoke` returns an object
that either has a `.content` attribute or is converted with `str(...)`
(src/rag/rag.py line 39). -/
inductive LLMResponse where
  | withContent (content : String)
  | other (text : String)
deriving DecidableEq

/-- `QAResult` (src/rag/rag.py lines 9-12). -/
structure QAResult where
  answer : String
  sources : List Doc
deriving DecidableEq

/-- The system prompt of `answer_question` (src/rag/rag.py lines 30-33). -/
def systemPrompt : String :=
  "You are a helpful assistant that answers strictly based on the provided context. If the answer is not contained in the context, say you don't know. Provide concise answers."

/-- The messages built by `answer_question` (src/rag/rag.py lines 34-37):
a system message and a user message holding the grounding context and the
question. -/
def build_messages (question context : String) : List ChatMessage :=
  [⟨"system", systemPrompt⟩,
   ⟨"user", "Context:\n" ++ context ++ "\n\nQuestion: " ++ question⟩]

/-- The grounding context of `answer_question` (src/rag/rag.py line 29):
the retrieved documents' page contents joined by a blank line, in
retrieval-rank order. -/
def contextOf (docs : List Doc) : String :=
  String.intercalate "\n\n" (docs.map fun d => String.mk d.pageContent)

/-- `answer_question` (src/rag/rag.py lines 25-40).  The retriever and the
chat model are function parameters; the result is the response's content
(or its string form) verbatim, with the retrieved documents returned
unmodified as `sources`. -/
def answer_question (retriever : String → List Doc)
    (llm : List ChatMessage → LLMResponse) (question : String) : QAResult :=
  let docs := retriever question
  let context := contextOf docs
  let response := llm (build_messages question context)
  { answer :=
      match response with
      | .withContent s => s
      | .other s => s,
    sources := docs }

/-- An entry of the file system: its path (a list of path components) and
whether it is a directory. -/
structure FsEntry where
  path : List String
  isDir : Bool
deriving DecidableEq

/-- `p` is strictly below `root`. -/
def strictlyUnder (root p : List String) : Prop := root <+: p ∧ p ≠ root

/-- Boolean form of `strictlyUnder`. -/
def isUnderB (root p : List String) : Bool :=
  root.isPrefixOf p && !(p == root)

/-- `INDEX_DIR.glob("**/*")` (src/app.py lines 55 and 61): every entry
strictly below `root`. -/
def glob (fs : List FsEntry) (root : List String) : List FsEntry :=
  fs.filter fun e => isUnderB root e.path

/-- Remove the entry at path `p`. -/
def removePath (fs : List FsEntry) (p : List String) : List FsEntry :=
  fs.filter fun e => !(e.path == p)

/-- Look up the entry at path `p` in the current file system. -/
def lookupPath (fs : List FsEntry) (p : List String) : Option FsEntry :=
  fs.find? fun e => e.path == p

/-- The first reset loop (src/app.py lines 55-59): `p.unlink()` on every
globbed path, catching only `IsADirectoryError`.  Unlinking a directory
raises the caught `IsADirectoryError` (skip); unlinking a missing path
raises `FileNotFoundError`, which is not caught — `none` models that
escaped exception. -/
def unlinkAll : List FsEntry → List FsEntry → Option (List FsEntry)
  | fs, [] => some fs
  | fs, e :: rest =>
    match lookupPath fs e.path with
    | none => none
    | some cur =>
      if cur.isDir then unlinkAll fs rest
      else unlinkAll (removePath fs e.path) rest

/-- The second reset loop (src/app.py lines 61-66): over the re-globbed
paths in reverse sorted order, `if p.is_dir(): p.rmdir()` catching
`OSError`.  A missing path fails the `is_dir` test (skip); `rmdir` on a
non-empty directory raises the caught `OSError` (skip); otherwise the
directory is removed. -/
def rmdirAll : List FsEntry → List FsEntry → List FsEntry
  | fs, [] => fs
  | fs, e :: rest =>
    match lookupPath fs e.path with
    | none => rmdirAll fs rest
    | some cur =>
      if cur.isDir then
        if fs.any (fun x => isUnderB e.path x.path) then rmdirAll fs rest
        else rmdirAll (removePath fs e.path) rest
      else rmdirAll fs rest

instance : DecidableRel (fun a b : FsEntry => b.path ≤ a.path) :=
  fun a b => inferInstanceAs (Decidable (b.path ≤ a.path))

/-- `sorted(INDEX_DIR.glob("**/*"), reverse=True)` (src/app.py line 61):
the entries in descending path order (children before their parents). -/
def sortDescending (l : List FsEntry) : List FsEntry :=
  List.insertionSort (fun a b => b.path ≤ a.path) l

/-- The "Reset Index" handler (src/app.py lines 53-66): if the index
directory exists, unlink every globbed path (first loop), then remove the
now-empty directories in reverse sorted order (second loop).  The Boolean
is `false` exactly when an exception escaped the handler. -/
def reset_index (fs : List FsEntry) (root : List String) :
    List FsEntry × Bool :=
  match lookupPath fs root with
  | none => (fs, true)
  | some _ =>
    match unlinkAll fs (glob fs root) with
    | none => (fs, false)
    | some fs1 => (rmdirAll fs1 (sortDescending (glob fs1 root)), true)

/-- Paths of a file-system state are distinct. -/
def pathsNodup (fs : List FsEntry) : Prop :=
  (fs.map (·.path)).Nodup

/-! ### Helper lemmas: ingestion -/

/-- A loader failure on any file of the batch makes the forced generator
`list(_load_pdfs(paths))` raise: `load_pdfs` returns an error. -/
lemma load_pdfs_error_of_mem (loader : String → Except String (List Doc))
    {paths : List String} {p : String} {msg : String}
    (hp : p ∈ paths) (hl : loader p = .error msg) :
    ∃ e, load_pdfs loader paths = .error e := by
  induction paths with
  | nil => cases hp
  | cons q qs ih =>
    rcases List.mem_cons.mp hp with rfl | hmem
    · exact ⟨msg, by simp only [load_pdfs, hl]; rfl⟩
    · match hq : loader q with
      | .error e => exact ⟨e, by simp only [load_pdfs, hq]; rfl⟩
      | .ok docs =>
        obtain ⟨e, he⟩ := ih hmem
        exact ⟨e, by simp only [load_pdfs, hq, he]; rfl⟩

/-- `add_pdfs_to_index` with a failing batch load: the exception propagates,
only the index directory is ensured, the persisted index is untouched. -/
lemma add_pdfs_of_load_error (loader : String → Except String (List Doc))
    (embed : List Char → Except String (List Int))
    (paths : List String) (fs : IndexFS) {e : String}
    (h : load_pdfs loader paths = .error e) :
    add_pdfs_to_index loader embed paths fs =
      ({ fs with indexDirExists := true }, some (.loaderError e)) := by
  simp [add_pdfs_to_index, h, ensure_index]

/-- `add_pdfs_to_index` on a successful nonempty load and a successful
embedding appends to the existing index (or creates a fresh one). -/
lemma add_pdfs_of_ok (loader : String → Except String (List Doc))
    (embed : List Char → Except String (List Int))
    (paths : List String) (fs : IndexFS) {raw : List Doc} {cs : List Chunk}
    (hload : load_pdfs loader paths = .ok raw) (hraw : raw ≠ [])
    (hembed : embed_docs embed (split_docs raw) = .ok cs) :
    add_pdfs_to_index loader embed paths fs =
      ({ indexDirExists := true,
         index := some ((fs.index.getD []) ++ cs) }, none) := by
  unfold add_pdfs_to_index
  rw [hload]
  cases raw with
  | nil => exact absurd rfl hraw
  | cons d ds =>
    simp only [List.isEmpty_cons, Bool.false_eq_true, if_false]
    cases hidx : (ensure_index fs).index with
    | none =>
      simp only [hidx, hembed]
      have : fs.index = none := by
        simpa [ensure_index] using hidx
      simp [ensure_index, this]
    | some existing =>
      simp only [hidx, hembed]
      have : fs.index = some existing := by
        simpa [ensure_index] using hidx
      simp [ensure_index, this]

/-! ### Helper lemmas: chunker -/

/-- Text within the size budget is returned as the single chunk. -/
lemma splitText_of_le (chunkSize chunkOverlap : Nat) (t : List Char)
    (h : t.length ≤ chunkSize) :
    splitText chunkSize chunkOverlap t = [t] := by
  unfold splitText
  simp [h]

/-! ### Helper lemmas: retrieval -/

/-- `search` returns `min k n` chunks on an index of `n` chunks. -/
lemma search_length (idx : List Chunk) (q : List Int) (k : Nat) :
    (search idx q k).length = min k idx.length := by
  rw [search, List.length_map, List.length_take, rankList,
    (List.perm_insertionSort _ _).length_eq, List.length_range]

/-- Persisting and loading an index is lossless: the chunk list is
reconstructed exactly. -/
lemma load_local_save_local (idx : List Chunk) :
    load_local (save_local idx) = idx := by
  induction idx with
  | nil => rfl
  | cons c cs ih =>
    simp only [save_local, load_local, List.map_cons, List.zip_cons_cons,
      List.map_map] at *
    simpa using ih

/-! ### C2 -/

/-- C2: persistence round-trip fidelity — searching the index obtained by
loading a persisted copy returns, for every query vector and every `k`,
exactly the same ranked chunk sequence (texts, provenance and embeddings
included) as searching the original index. -/
theorem c2_persist_load_round_trip (idx : List Chunk) (q : List Int) (k : Nat) :
    search (load_local (save_local idx)) q k = search idx q k := by
  rw [load_local_save_local]

/-! ### C3 -/

/-- C3: on an index of `n` chunks and a positive `k`, `search` returns
exactly `min k n` chunks, listed by a ranking of the chunk positions that
is a permutation of all positions, pairwise ordered by non-increasing
similarity to the query with ties broken in favor of the earlier-inserted
(smaller) position. -/
theorem c3_search_top_k (idx : List Chunk) (q : List Int) (k : Nat)
    (hk : 0 < k) :
    (search idx q k).length = min k idx.length ∧
      List.Sorted (rankRel idx q) ((rankList idx q).take k) ∧
      (rankList idx q).Perm (List.range idx.length) ∧
      search idx q k = ((rankList idx q).take k).map
        (fun i => idx.getD i default) := by
  refine ⟨search_length idx q k, ?_, List.perm_insertionSort _ _, rfl⟩
  exact List.Pairwise.sublist (List.take_sublist k (rankList idx q))
    (List.sorted_insertionSort (rankRel idx q) (List.range idx.length))

/-- C3, witness at a concrete two-chunk index: the nearer chunk is ranked
first and `min k n` chunks are returned. -/
theorem c3_search_top_k_witness :
    (search [⟨['a'], "a.pdf", 0, [0]⟩, ⟨['b'], "b.pdf", 0, [5]⟩] [4] 1).length =
        min 1 [(⟨['a'], "a.pdf", 0, [0]⟩ : Chunk), ⟨['b'], "b.pdf", 0, [5]⟩].length ∧
      List.Sorted (rankRel [⟨['a'], "a.pdf", 0, [0]⟩, ⟨['b'], "b.pdf", 0, [5]⟩] [4])
        ((rankList [⟨['a'], "a.pdf", 0, [0]⟩, ⟨['b'], "b.pdf", 0, [5]⟩] [4]).take 1) ∧
      (rankList [⟨['a'], "a.pdf", 0, [0]⟩, ⟨['b'], "b.pdf", 0, [5]⟩] [4]).Perm
        (List.range [(⟨['a'], "a.pdf", 0, [0]⟩ : Chunk), ⟨['b'], "b.pdf", 0, [5]⟩].length) ∧
      search [⟨['a'], "a.pdf", 0, [0]⟩, ⟨['b'], "b.pdf", 0, [5]⟩] [4] 1 =
        ((rankList [⟨['a'], "a.pdf", 0, [0]⟩, ⟨['b'], "b.pdf", 0, [5]⟩] [4]).take 1).map
          (fun i => [(⟨['a'], "a.pdf", 0, [0]⟩ : Chunk), ⟨['b'], "b.pdf", 0, [5]⟩].getD i default) :=
  c3_search_top_k [⟨['a'], "a.pdf", 0, [0]⟩, ⟨['b'], "b.pdf", 0, [5]⟩] [4] 1
    (by decide)

/-- A concrete loader for counterexamples and witnesses: `b.pdf` fails to
parse, the other files yield one page each. -/
def exLoader : String → Except String (List Doc) :=
  fun p =>
    if p = "b.pdf" then .error "parse error"
    else .ok [⟨['d'], p, 0⟩]

/-- A concrete always-succeeding embedder. -/
def exEmbed : List Char → Except String (List Int) :=
  fun t => .ok [Int.ofNat t.length]

/-- A concrete always-failing embedder (rate-limited service). -/
def exEmbedFail : List Char → Except String (List Int) :=
  fun _ => .error "rate limit"

/-! ### C1 -/

/-- C1, counterexample: with three files where only `b.pdf` has a Loader
failure, `add_pdfs_to_index` aborts with the loader error and ingests
nothing — `a.pdf` and `c.pdf` are not chunked, embedded, or appended,
contradicting the claim that a failure on one file is skipped while the
remaining files are still ingested. -/
theorem c1_loader_failure_counterexample :
    (add_pdfs_to_index exLoader exEmbed ["a.pdf", "b.pdf", "c.pdf"]
        ⟨false, none⟩).1.index = none ∧
      (add_pdfs_to_index exLoader exEmbed ["a.pdf", "b.pdf", "c.pdf"]
          ⟨false, none⟩).2 = some (.loaderError "parse error") := by
  constructor <;> rfl

/-- C1, amended: a Document Loader failure on any file in the batch aborts
the ingestion of the whole batch — the loader exception propagates out of
`add_pdfs_to_index`, no file of the batch is chunked, embedded, or
appended, and the persisted index is left unchanged (only the index
directory is ensured). -/
theorem c1_loader_failure_aborts_batch
    (loader : String → Except String (List Doc))
    (embed : List Char → Except String (List Int))
    (paths : List String) (fs : IndexFS) (p msg : String)
    (hp : p ∈ paths) (hl : loader p = .error msg) :
    ∃ e, add_pdfs_to_index loader embed paths fs =
      ({ fs with indexDirExists := true }, some (.loaderError e)) := by
  obtain ⟨e, he⟩ := load_pdfs_error_of_mem loader hp hl
  exact ⟨e, add_pdfs_of_load_error loader embed paths fs he⟩

/-- C1, witness for the amended theorem at a concrete input. -/
theorem c1_loader_failure_aborts_batch_witness :
    ∃ e, add_pdfs_to_index exLoader exEmbed ["a.pdf", "b.pdf", "c.pdf"]
        ⟨false, none⟩ =
      ({ indexDirExists := true, index := none }, some (.loaderError e)) :=
  c1_loader_failure_aborts_batch exLoader exEmbed ["a.pdf", "b.pdf", "c.pdf"]
    ⟨false, none⟩ "b.pdf" "parse error" (by decide) (by rfl)

/-! ### C4 -/

/-- C4: if the Embedder fails while embedding the split batch, the whole
ingestion aborts with the service error and no partial state is persisted:
the index component of the resulting state is exactly the one from before
the ingestion (whether an index file existed or not), so no chunk lacking
an embedding can reach the persisted index. -/
theorem c4_embedder_failure_no_partial_persist
    (loader : String → Except String (List Doc))
    (embed : List Char → Except String (List Int))
    (paths : List String) (fs : IndexFS) (raw : List Doc) (e : String)
    (hload : load_pdfs loader paths = .ok raw)
    (hembed : embed_docs embed (split_docs raw) = .error e) :
    add_pdfs_to_index loader embed paths fs =
      ({ fs with indexDirExists := true }, some (.serviceError e)) := by
  unfold add_pdfs_to_index
  rw [hload]
  cases raw with
  | nil => simp [split_docs, embed_docs] at hembed
  | cons d ds =>
    simp only [List.isEmpty_cons, Bool.false_eq_true, if_false]
    cases hidx : (ensure_index fs).index with
    | none => simp [hidx, hembed, ensure_index]
    | some existing => simp [hidx, hembed, ensure_index]

/-- C4, witness at a concrete input: one parsable file, failing embedder,
an existing persisted index that stays exactly as it was. -/
theorem c4_embedder_failure_no_partial_persist_witness :
    add_pdfs_to_index exLoader exEmbedFail ["a.pdf"]
        ⟨true, some [⟨['x'], "old.pdf", 0, [7]⟩]⟩ =
      ({ indexDirExists := true,
         index := some [⟨['x'], "old.pdf", 0, [7]⟩] }, some (.serviceError "rate limit")) :=
  c4_embedder_failure_no_partial_persist exLoader exEmbedFail ["a.pdf"]
    ⟨true, some [⟨['x'], "old.pdf", 0, [7]⟩]⟩
    [⟨['d'], "a.pdf", 0⟩] "rate limit" (by rfl)
    (by simp [split_docs, splitText_of_le, embed_docs, exEmbedFail]; rfl)

/-! ### C10 -/

/-- C10: if forcing the loaders yields zero documents, `add_pdfs_to_index`
returns without error, without calling the Embedder (the result does not
depend on `embed` at all), and without creating or modifying any persisted
index: the resulting state is the input state with only the index
directory's existence ensured. -/
theorem c10_empty_load_is_noop
    (loader : String → Except String (List Doc))
    (embed : List Char → Except String (List Int))
    (paths : List String) (fs : IndexFS)
    (h : load_pdfs loader paths = .ok []) :
    add_pdfs_to_index loader embed paths fs =
      ({ fs with indexDirExists := true }, none) := by
  simp [add_pdfs_to_index, h, ensure_index]

/-- C10, witness: an empty batch over a state with an existing index; the
index is unchanged even for an embedder that would fail if called. -/
theorem c10_empty_load_is_noop_witness :
    add_pdfs_to_index exLoader exEmbedFail []
        ⟨false, some [⟨['x'], "old.pdf", 0, [7]⟩]⟩ =
      ({ indexDirExists := true,
         index := some [⟨['x'], "old.pdf", 0, [7]⟩] }, none) :=
  c10_empty_load_is_noop exLoader exEmbedFail []
    ⟨false, some [⟨['x'], "old.pdf", 0, [7]⟩]⟩ (by rfl)

/-! ### C7 -/

/-- C7: ingesting the same batch twice into the same index path appends a
duplicate chunk set: the first run persists `cs`, the second run loads the
persisted index and appends the same `cs` again, so for every chunk
position `i` the doubled index holds two entries, at the distinct positions
`i` and `i + cs.length`, with identical text (no deduplication by content),
and a search requesting `2 * cs.length` results returns all of them. -/
theorem c7_reingest_appends_duplicates
    (loader : String → Except String (List Doc))
    (embed : List Char → Except String (List Int))
    (paths : List String) (fs0 : IndexFS) (raw : List Doc) (cs : List Chunk)
    (hload : load_pdfs loader paths = .ok raw) (hraw : raw ≠ [])
    (hembed : embed_docs embed (split_docs raw) = .ok cs)
    (h0 : fs0.index = none) :
    (add_pdfs_to_index loader embed paths fs0).1.index = some cs ∧
      (add_pdfs_to_index loader embed paths
          (add_pdfs_to_index loader embed paths fs0).1).1.index =
        some (cs ++ cs) ∧
      (∀ i, i < cs.length →
        ((cs ++ cs).getD i default).text =
            ((cs ++ cs).getD (i + cs.length) default).text ∧
          i ≠ i + cs.length) ∧
      ∀ q, (search (cs ++ cs) q (2 * cs.length)).length = 2 * cs.length := by
  have h1 := add_pdfs_of_ok loader embed paths fs0 hload hraw hembed
  rw [h0] at h1
  simp only [Option.getD_none, List.nil_append] at h1
  have h2 := add_pdfs_of_ok loader embed paths
    (add_pdfs_to_index loader embed paths fs0).1 hload hraw hembed
  rw [h1] at h2 ⊢
  simp only [Option.getD_some] at h2
  refine ⟨rfl, by simp [h2], ?_, ?_⟩
  · intro i hi
    constructor
    · rw [List.getD_eq_getElem?_getD, List.getD_eq_getElem?_getD]
      rw [List.getElem?_append_left (by simpa using hi),
        List.getElem?_append_right (by omega)]
      simp
    · omega
  · intro q
    have hlen : (cs ++ cs).length = 2 * cs.length := by
      simp [List.length_append]; omega
    rw [search_length]
    omega

/-- C7, witness: one single-page file ingested twice into a fresh index
path gives two entries with identical text at distinct positions. -/
theorem c7_reingest_appends_duplicates_witness :
    (add_pdfs_to_index exLoader exEmbed ["a.pdf"] ⟨false, none⟩).1.index =
        some [⟨['d'], "a.pdf", 0, [1]⟩] ∧
      (add_pdfs_to_index exLoader exEmbed ["a.pdf"]
          (add_pdfs_to_index exLoader exEmbed ["a.pdf"] ⟨false, none⟩).1).1.index =
        some ([⟨['d'], "a.pdf", 0, [1]⟩] ++ [⟨['d'], "a.pdf", 0, [1]⟩]) ∧
      (∀ i, i < [(⟨['d'], "a.pdf", 0, [1]⟩ : Chunk)].length →
        (([(⟨['d'], "a.pdf", 0, [1]⟩ : Chunk)] ++
              [(⟨['d'], "a.pdf", 0, [1]⟩ : Chunk)]).getD i default).text =
            (([(⟨['d'], "a.pdf", 0, [1]⟩ : Chunk)] ++
                [(⟨['d'], "a.pdf", 0, [1]⟩ : Chunk)]).getD
                (i + [(⟨['d'], "a.pdf", 0, [1]⟩ : Chunk)].length) default).text ∧
          i ≠ i + [(⟨['d'], "a.pdf", 0, [1]⟩ : Chunk)].length) ∧
      ∀ q, (search ([⟨['d'], "a.pdf", 0, [1]⟩] ++ [⟨['d'], "a.pdf", 0, [1]⟩]) q
          (2 * [(⟨['d'], "a.pdf", 0, [1]⟩ : Chunk)].length)).length =
        2 * [(⟨['d'], "a.pdf", 0, [1]⟩ : Chunk)].length :=
  c7_reingest_appends_duplicates exLoader exEmbed ["a.pdf"] ⟨false, none⟩
    [⟨['d'], "a.pdf", 0⟩] [⟨['d'], "a.pdf", 0, [1]⟩] (by rfl) (by simp)
    (by simp [split_docs, splitText_of_le, embed_docs, exEmbed]; rfl) (by rfl)

/-! ### C9 -/

/-- C9: the Answerer builds the grounding context by joining the retrieved
documents' text in retrieval-rank order with the `"\n\n"` delimiter inside
the user message handed to the generation service; whenever the service's
response carries content `s`, the result's answer is `s` verbatim, and the
result's sources are exactly the retrieved sequence, unmodified and in the
same order. -/
theorem c9_answer_verbatim_sources_exact (retriever : String → List Doc)
    (llm : List ChatMessage → LLMResponse) (question s : String)
    (h : llm (build_messages question
        (String.intercalate "\n\n"
          ((retriever question).map fun d => String.mk d.pageContent))) =
      .withContent s) :
    (answer_question retriever llm question).sources = retriever question ∧
      (answer_question retriever llm question).answer = s ∧
      build_messages question (contextOf (retriever question)) =
        [⟨"system", systemPrompt⟩,
         ⟨"user", "Context:\n" ++ contextOf (retriever question) ++
            "\n\nQuestion: " ++ question⟩] := by
  have hc : contextOf (retriever question) =
      String.intercalate "\n\n"
        ((retriever question).map fun d => String.mk d.pageContent) := rfl
  refine ⟨rfl, ?_, rfl⟩
  show (match llm (build_messages question (contextOf (retriever question))) with
    | .withContent s => s
    | .other s => s) = s
  rw [hc, h]

/-- C9, witness at a concrete retriever, generation service and question. -/
theorem c9_answer_verbatim_sources_exact_witness :
    (answer_question (fun _ => [⟨['h', 'i'], "a.pdf", 0⟩])
        (fun _ => .withContent "the answer") "q?").sources =
        (fun _ : String => [(⟨['h', 'i'], "a.pdf", 0⟩ : Doc)]) "q?" ∧
      (answer_question (fun _ => [⟨['h', 'i'], "a.pdf", 0⟩])
          (fun _ => .withContent "the answer") "q?").answer = "the answer" ∧
      build_messages "q?"
          (contextOf ((fun _ : String => [(⟨['h', 'i'], "a.pdf", 0⟩ : Doc)]) "q?")) =
        [⟨"system", systemPrompt⟩,
         ⟨"user", "Context:\n" ++
            contextOf ((fun _ : String => [(⟨['h', 'i'], "a.pdf", 0⟩ : Doc)]) "q?") ++
            "\n\nQuestion: " ++ "q?"⟩] :=
  c9_answer_verbatim_sources_exact (fun _ => [⟨['h', 'i'], "a.pdf", 0⟩])
    (fun _ => .withContent "the answer") "q?" "the answer" (by rfl)

/-! ### Helper lemmas: split-point choice -/

/-- `p` is the largest position in `[1, bound]` satisfying `pred`. -/
def LargestHit (pred : Nat → Bool) (bound p : Nat) : Prop :=
  pred p = true ∧ 1 ≤ p ∧ p ≤ bound ∧
    ∀ q, p < q → q ≤ bound → pred q = false

/-- No position in `[1, bound]` satisfies `pred`. -/
def NoHit (pred : Nat → Bool) (bound : Nat) : Prop :=
  ∀ q, 1 ≤ q → q ≤ bound → pred q = false

/-- The boundary-priority contract of the Chunker's split point: the cut is
at the last paragraph break within the budget; only if there is none, at
the last line break; only if there is none, at the last word boundary; and
only if there is none of the three, at the raw character position
`chunkSize`. -/
def PriorityChoice (chunkSize : Nat) (t : List Char) (p : Nat) : Prop :=
  LargestHit (paraBreakAt t) chunkSize p ∨
    (NoHit (paraBreakAt t) chunkSize ∧ LargestHit (lineBreakAt t) chunkSize p) ∨
    (NoHit (paraBreakAt t) chunkSize ∧ NoHit (lineBreakAt t) chunkSize ∧
      LargestHit (wordBreakAt t) chunkSize p) ∨
    (NoHit (paraBreakAt t) chunkSize ∧ NoHit (lineBreakAt t) chunkSize ∧
      NoHit (wordBreakAt t) chunkSize ∧ p = chunkSize)

lemma findLargest_eq_some {pred : Nat → Bool} {n p : Nat}
    (h : findLargest pred n = some p) : LargestHit pred n p := by
  induction n with
  | zero => simp [findLargest] at h
  | succ m ih =>
    rw [findLargest] at h
    by_cases hp : pred (m + 1) = true
    · rw [if_pos hp] at h
      cases h
      exact ⟨hp, by omega, le_refl _, fun q hq1 hq2 => by omega⟩
    · rw [if_neg hp] at h
      obtain ⟨h1, h2, h3, h4⟩ := ih h
      refine ⟨h1, h2, by omega, fun q hq1 hq2 => ?_⟩
      rcases Nat.lt_or_ge q (m + 1) with hlt | hge
      · exact h4 q hq1 (by omega)
      · have : q = m + 1 := by omega
        subst this
        exact Bool.not_eq_true _ ▸ (by simpa using hp)

lemma findLargest_eq_none {pred : Nat → Bool} {n : Nat}
    (h : findLargest pred n = none) : NoHit pred n := by
  induction n with
  | zero => exact fun q hq1 hq2 => by omega
  | succ m ih =>
    rw [findLargest] at h
    by_cases hp : pred (m + 1) = true
    · rw [if_pos hp] at h
      cases h
    · rw [if_neg hp] at h
      intro q hq1 hq2
      rcases Nat.lt_or_ge q (m + 1) with hlt | hge
      · exact ih h q hq1 (by omega)
      · have : q = m + 1 := by omega
        subst this
        simpa using hp

/-- The chosen split point obeys the boundary priority order. -/
lemma chooseSplit_priority (cs : Nat) (t : List Char) :
    PriorityChoice cs t (chooseSplit cs t) := by
  unfold chooseSplit
  rcases h1 : findLargest (fun p => paraBreakAt t p) cs with _ | p1
  · rcases h2 : findLargest (fun p => lineBreakAt t p) cs with _ | p2
    · rcases h3 : findLargest (fun p => wordBreakAt t p) cs with _ | p3
      · exact Or.inr (Or.inr (Or.inr
          ⟨findLargest_eq_none h1, findLargest_eq_none h2,
           findLargest_eq_none h3, rfl⟩))
      · exact Or.inr (Or.inr (Or.inl
          ⟨findLargest_eq_none h1, findLargest_eq_none h2,
           findLargest_eq_some h3⟩))
    · exact Or.inr (Or.inl ⟨findLargest_eq_none h1, findLargest_eq_some h2⟩)
  · exact Or.inl (findLargest_eq_some h1)

/-- The chosen split point never exceeds the size budget. -/
lemma chooseSplit_le (cs : Nat) (t : List Char) : chooseSplit cs t ≤ cs := by
  unfold chooseSplit
  rcases h1 : findLargest (fun p => paraBreakAt t p) cs with _ | p1
  · rcases h2 : findLargest (fun p => lineBreakAt t p) cs with _ | p2
    · rcases h3 : findLargest (fun p => wordBreakAt t p) cs with _ | p3
      · exact le_refl _
      · exact (findLargest_eq_some h3).2.2.1
    · exact (findLargest_eq_some h2).2.2.1
  · exact (findLargest_eq_some h1).2.2.1

/-- The chosen split point is positive when the budget is. -/
lemma chooseSplit_pos (cs : Nat) (t : List Char) (hcs : 0 < cs) :
    1 ≤ chooseSplit cs t := by
  unfold chooseSplit
  rcases h1 : findLargest (fun p => paraBreakAt t p) cs with _ | p1
  · rcases h2 : findLargest (fun p => lineBreakAt t p) cs with _ | p2
    · rcases h3 : findLargest (fun p => wordBreakAt t p) cs with _ | p3
      · exact hcs
      · exact (findLargest_eq_some h3).2.1
    · exact (findLargest_eq_some h2).2.1
  · exact (findLargest_eq_some h1).2.1

/-- Every chunk produced by the splitter fits the size budget. -/
lemma splitText_chunk_le (cs co : Nat) (t : List Char) :
    ∀ c ∈ splitText cs co t, c.length ≤ cs := by
  induction t using splitText.induct cs co with
  | case1 x hx =>
    intro c hc
    rw [splitText] at hc
    simp only [if_pos hx, List.mem_singleton] at hc
    subst hc
    exact hx
  | case2 x hx p step ih =>
    intro c hc
    rw [splitText] at hc
    simp only [if_neg hx, List.mem_cons] at hc
    rcases hc with rfl | hmem
    · have hp : chooseSplit cs x ≤ cs := chooseSplit_le cs x
      simp only [List.length_take]
      omega
    · exact ih c hmem

/-- `splitSpans` always starts with a span based at `start0`. -/
lemma splitSpans_head (cs co : Nat) (t : List Char) (start0 : Nat) :
    ∃ len rest, splitSpans cs co t start0 = (start0, len) :: rest := by
  rw [splitSpans]
  by_cases h : t.length ≤ cs
  · exact ⟨t.length, [], by simp [h]⟩
  · refine ⟨chooseSplit cs t,
      splitSpans cs co (t.drop (max (chooseSplit cs t - co) 1))
        (start0 + max (chooseSplit cs t - co) 1), ?_⟩
    simp [h]

/-- The chunks are exactly the extractions of the spans from the original
text (`t` is the residual `T.drop start0` of the original text `T`). -/
lemma splitText_eq_map_spans (cs co : Nat) :
    ∀ (n : Nat) (T t : List Char) (start0 : Nat), t.length ≤ n →
      T.drop start0 = t →
      splitText cs co t =
        (splitSpans cs co t start0).map fun s => (T.drop s.1).take s.2 := by
  intro n
  induction n with
  | zero =>
    intro T t start0 hn hT
    have ht : t = [] := List.length_eq_zero.mp (by omega)
    subst ht
    rw [splitText, splitSpans]
    simp [hT]
  | succ m ih =>
    intro T t start0 hn hT
    rw [splitText, splitSpans]
    by_cases h : t.length ≤ cs
    · simp only [if_pos h, List.map_cons, List.map_nil]
      rw [hT, List.take_length]
    · simp only [if_neg h, List.map_cons]
      congr 1
      · rw [hT]
      · apply ih T (t.drop (max (chooseSplit cs t - co) 1)) (start0 + max (chooseSplit cs t - co) 1)
        · simp only [List.length_drop]
          omega
        · rw [← List.drop_drop, hT]

/-- Adjacent spans satisfy the overlap equation (the next chunk starts
`chunkOverlap` units before the previous cut, clamped to keep progress)
and every non-final span's length is a priority-order boundary choice. -/
lemma splitSpans_chain (cs co : Nat) (hcs : 0 < cs) :
    ∀ (n : Nat) (T t : List Char) (start0 : Nat), t.length ≤ n →
      T.drop start0 = t →
      List.Chain'
        (fun s₁ s₂ => s₂.1 = s₁.1 + s₁.2 - min co (s₁.2 - 1) ∧
          PriorityChoice cs (T.drop s₁.1) s₁.2)
        (splitSpans cs co t start0) := by
  intro n
  induction n with
  | zero =>
    intro T t start0 hn hT
    have ht : t = [] := List.length_eq_zero.mp (by omega)
    subst ht
    rw [splitSpans]
    simp
  | succ m ih =>
    intro T t start0 hn hT
    rw [splitSpans]
    by_cases h : t.length ≤ cs
    · simp [h]
    · simp only [if_neg h]
      obtain ⟨len, rest, hr⟩ :=
        splitSpans_head cs co (t.drop (max (chooseSplit cs t - co) 1))
          (start0 + max (chooseSplit cs t - co) 1)
      rw [hr]
      refine List.chain'_cons.mpr ⟨⟨?_, ?_⟩, ?_⟩
      · have hp := chooseSplit_pos cs t hcs
        omega
      · rw [hT]
        exact chooseSplit_priority cs t
      · rw [← hr]
        apply ih T (t.drop (max (chooseSplit cs t - co) 1)) (start0 + max (chooseSplit cs t - co) 1)
        · simp only [List.length_drop]
          omega
        · rw [← List.drop_drop, hT]

/-! ### C5 -/

/-- C5: an input text strictly shorter than the configured maximum chunk
length is returned as exactly one chunk equal to the input. -/
theorem c5_short_input_single_chunk (chunkSize chunkOverlap : Nat)
    (t : List Char) (h : t.length < chunkSize) :
    splitText chunkSize chunkOverlap t = [t] :=
  splitText_of_le chunkSize chunkOverlap t (le_of_lt h)

/-- C5, witness at a concrete short input and the default configuration. -/
theorem c5_short_input_single_chunk_witness :
    splitText 1000 150 ['h', 'i'] = [['h', 'i']] :=
  c5_short_input_single_chunk 1000 150 ['h', 'i'] (by decide)

/-! ### C6 -/

/-- C6: for every input text, the Chunker yields an ordered sequence of
substrings of the input — the extractions of its spans, in order — such
that (a) each substring's length is at most the configured maximum,
(b) each successive span starts `chunkOverlap` units before the previous
cut (clamped so splitting always advances, i.e. the consecutive substrings
overlap by the configured amount), and (c) every non-final cut obeys the
boundary priority order: a paragraph break if one is available within the
size budget, else a line break, else a word boundary, else a raw character
cut at the budget.  Instantiating `chunkSize := 1000, chunkOverlap := 150`
gives the defaults configured in `_split_docs`. -/
theorem c6_chunker_contract (chunkSize chunkOverlap : Nat) (t : List Char)
    (hcs : 0 < chunkSize) :
    (∀ c ∈ splitText chunkSize chunkOverlap t, c.length ≤ chunkSize) ∧
      splitText chunkSize chunkOverlap t =
        (splitSpans chunkSize chunkOverlap t 0).map
          (fun s => (t.drop s.1).take s.2) ∧
      List.Chain'
        (fun s₁ s₂ => s₂.1 = s₁.1 + s₁.2 - min chunkOverlap (s₁.2 - 1) ∧
          PriorityChoice chunkSize (t.drop s₁.1) s₁.2)
        (splitSpans chunkSize chunkOverlap t 0) :=
  ⟨splitText_chunk_le chunkSize chunkOverlap t,
   splitText_eq_map_spans chunkSize chunkOverlap t.length t t 0 le_rfl rfl,
   splitSpans_chain chunkSize chunkOverlap hcs t.length t t 0 le_rfl rfl⟩

/-- C6, witness: the contract at a small concrete configuration and text
that actually splits (budget 5, overlap 2). -/
theorem c6_chunker_contract_witness :
    (∀ c ∈ splitText 5 2 ['a', 'b', ' ', 'c', 'd', ' ', 'e', 'f'],
        c.length ≤ 5) ∧
      splitText 5 2 ['a', 'b', ' ', 'c', 'd', ' ', 'e', 'f'] =
        (splitSpans 5 2 ['a', 'b', ' ', 'c', 'd', ' ', 'e', 'f'] 0).map
          (fun s => (['a', 'b', ' ', 'c', 'd', ' ', 'e', 'f'].drop s.1).take s.2) ∧
      List.Chain'
        (fun s₁ s₂ => s₂.1 = s₁.1 + s₁.2 - min 2 (s₁.2 - 1) ∧
          PriorityChoice 5 (['a', 'b', ' ', 'c', 'd', ' ', 'e', 'f'].drop s₁.1) s₁.2)
        (splitSpans 5 2 ['a', 'b', ' ', 'c', 'd', ' ', 'e', 'f'] 0) :=
  c6_chunker_contract 5 2 ['a', 'b', ' ', 'c', 'd', ' ', 'e', 'f'] (by decide)

/-! ### Helper lemmas: reset -/

lemma isUnderB_iff (root p : List String) :
    isUnderB root p = true ↔ strictlyUnder root p := by
  unfold isUnderB strictlyUnder
  rw [Bool.and_eq_true, List.isPrefixOf_iff_prefix, Bool.not_eq_true',
    beq_eq_false_iff_ne]

instance (root p : List String) : Decidable (strictlyUnder root p) :=
  decidable_of_iff _ (isUnderB_iff root p)

/-- Distinct paths identify entries. -/
lemma path_inj {fs : List FsEntry} (hnd : pathsNodup fs) {x y : FsEntry}
    (hx : x ∈ fs) (hy : y ∈ fs) (h : x.path = y.path) : x = y :=
  List.inj_on_of_nodup_map hnd hx hy h

lemma pathsNodup_of_sublist {fs fs' : List FsEntry} (h : fs'.Sublist fs)
    (hnd : pathsNodup fs) : pathsNodup fs' :=
  List.Nodup.sublist (List.Sublist.map (·.path) h) hnd

lemma pathsNodup_tail {a : FsEntry} {l : List FsEntry}
    (h : pathsNodup (a :: l)) : pathsNodup l :=
  List.Pairwise.of_cons h

lemma lookupPath_of_mem :
    ∀ (fs : List FsEntry) (e : FsEntry), e ∈ fs → pathsNodup fs →
      lookupPath fs e.path = some e := by
  intro fs
  induction fs with
  | nil => intro e he _; cases he
  | cons a l ih =>
    intro e he hnd
    unfold lookupPath
    by_cases hpa : (a.path == e.path) = true
    · rw [List.find?_cons_of_pos l hpa]
      have : a = e :=
        path_inj hnd (List.mem_cons_self a l) he (beq_iff_eq.mp hpa)
      rw [this]
    · rw [List.find?_cons_of_neg l hpa]
      have hel : e ∈ l := by
        rcases List.mem_cons.mp he with rfl | h
        · exact absurd (beq_self_eq_true e.path) hpa
        · exact h
      exact ih e hel (pathsNodup_tail hnd)

lemma unlinkAll_cons (fs : List FsEntry) (e : FsEntry) (rest : List FsEntry) :
    unlinkAll fs (e :: rest) =
      match lookupPath fs e.path with
      | none => none
      | some cur =>
        if cur.isDir then unlinkAll fs rest
        else unlinkAll (removePath fs e.path) rest := rfl

lemma rmdirAll_cons (fs : List FsEntry) (e : FsEntry) (rest : List FsEntry) :
    rmdirAll fs (e :: rest) =
      match lookupPath fs e.path with
      | none => rmdirAll fs rest
      | some cur =>
        if cur.isDir then
          if fs.any (fun x => isUnderB e.path x.path) then rmdirAll fs rest
          else rmdirAll (removePath fs e.path) rest
        else rmdirAll fs rest := rfl

/-- Closed form of the first reset loop: it never raises (the snapshot's
paths all still exist when reached, because only already-processed paths
have been unlinked) and it removes exactly the snapshot's files. -/
lemma unlinkAll_eq :
    ∀ (snap fs : List FsEntry), pathsNodup fs → (∀ e ∈ snap, e ∈ fs) →
      pathsNodup snap →
      unlinkAll fs snap =
        some (fs.filter fun x =>
          x.isDir || !(snap.any fun s => s.path == x.path)) := by
  intro snap
  induction snap with
  | nil =>
    intro fs _ _ _
    simp [unlinkAll]
  | cons e rest ih =>
    intro fs hnd hsub hsnd
    have he_fs : e ∈ fs := hsub e (List.mem_cons_self e rest)
    have hl : lookupPath fs e.path = some e := lookupPath_of_mem fs e he_fs hnd
    rw [unlinkAll_cons, hl]
    dsimp only
    by_cases hd : e.isDir = true
    · rw [if_pos hd,
        ih fs hnd (fun x hx => hsub x (List.mem_cons_of_mem e hx))
          (pathsNodup_tail hsnd)]
      congr 1
      apply List.filter_congr
      intro x hx
      by_cases hpe : e.path = x.path
      · have hx_eq : x = e := path_inj hnd hx he_fs hpe.symm
        subst hx_eq
        simp [hd]
      · have h1 : (e.path == x.path) = false := beq_eq_false_iff_ne.mpr hpe
        simp [List.any_cons, h1]
    · rw [if_neg hd]
      have hrest_sub : ∀ x ∈ rest, x ∈ removePath fs e.path := by
        intro x hx
        refine List.mem_filter.mpr ⟨hsub x (List.mem_cons_of_mem e hx), ?_⟩
        have hnot : e.path ∉ rest.map (·.path) := (List.nodup_cons.mp hsnd).1
        have hne : x.path ≠ e.path := by
          intro hEq
          exact hnot (hEq ▸ List.mem_map_of_mem (·.path) hx)
        simp [hne]
      rw [ih (removePath fs e.path)
        (pathsNodup_of_sublist (List.filter_sublist fs) hnd) hrest_sub
        (pathsNodup_tail hsnd)]
      congr 1
      unfold removePath
      rw [List.filter_filter]
      apply List.filter_congr
      intro x hx
      by_cases hpe : x.path = e.path
      · have hx_eq : x = e := path_inj hnd hx he_fs hpe
        subst hx_eq
        have hdf : x.isDir = false := Bool.not_eq_true _ ▸ (by simpa using hd)
        simp [hdf, List.any_cons]
      · have h1 : (e.path == x.path) = false :=
          beq_eq_false_iff_ne.mpr (fun h => hpe h.symm)
        have h2 : (x.path == e.path) = false := beq_eq_false_iff_ne.mpr hpe
        simp [List.any_cons, h1, h2]

/-- After the first loop over the glob snapshot, the surviving entries are
the directories and everything not under the root. -/
lemma unlinkAll_glob (fs : List FsEntry) (root : List String)
    (hnd : pathsNodup fs) :
    unlinkAll fs (glob fs root) =
      some (fs.filter fun x => x.isDir || !(isUnderB root x.path)) := by
  rw [unlinkAll_eq (glob fs root) fs hnd
    (fun e he => (List.mem_filter.mp he).1)
    (pathsNodup_of_sublist (List.filter_sublist fs) hnd)]
  congr 1
  apply List.filter_congr
  intro x hx
  have : (glob fs root).any (fun s => s.path == x.path) =
      isUnderB root x.path := by
    cases hu : isUnderB root x.path
    · apply List.any_eq_false.mpr
      intro s hs hc
      have hsx : s = x :=
        path_inj hnd (List.mem_filter.mp hs).1 hx (beq_iff_eq.mp hc)
      subst hsx
      rw [(List.mem_filter.mp hs).2] at hu
      cases hu
    · apply List.any_eq_true.mpr
      exact ⟨x, List.mem_filter.mpr ⟨hx, hu⟩, beq_self_eq_true x.path⟩
  rw [this]

/-- A strict descendant of a directory under the root is itself strictly
under the root. -/
lemma strictlyUnder_of_descend {root d p : List String}
    (hd : strictlyUnder root d) (hp : strictlyUnder d p) :
    strictlyUnder root p := by
  obtain ⟨hd1, hd2⟩ := hd
  obtain ⟨hp1, hp2⟩ := hp
  refine ⟨hd1.trans hp1, ?_⟩
  have h1 : root.length ≤ d.length := hd1.length_le
  have h2 : d.length < p.length := by
    rcases Nat.lt_or_ge d.length p.length with h | h
    · exact h
    · exact absurd (hp1.eq_of_length (le_antisymm hp1.length_le h)) (Ne.symm hp2)
  intro hEq
  have : p.length = root.length := by rw [hEq]
  omega

/-- A strict prefix is lexicographically smaller. -/
lemma lt_of_strict_prefix :
    ∀ {a b : List String}, a <+: b → a ≠ b → a < b := by
  intro a
  induction a with
  | nil =>
    intro b hp hne
    cases b with
    | nil => exact absurd rfl hne
    | cons x bs => exact List.nil_lt_cons x bs
  | cons x xs ih =>
    intro b hp hne
    obtain ⟨t, ht⟩ := hp
    subst ht
    have hne' : xs ≠ xs ++ t := by
      intro h
      apply hne
      rw [List.cons_append, ← h]
    have h' : List.Lex (· < ·) xs (xs ++ t) := ih ⟨t, rfl⟩ hne'
    show List.Lex (· < ·) (x :: xs) ((x :: xs) ++ t)
    rw [List.cons_append]
    exact List.Lex.cons h'

lemma pathsNodup_sortDescending {l : List FsEntry} (h : pathsNodup l) :
    pathsNodup (sortDescending l) := by
  have h' : (l.map (·.path)).Nodup := h
  unfold pathsNodup sortDescending
  exact ((List.perm_insertionSort (fun a b : FsEntry => b.path ≤ a.path) l).map
    (·.path)).nodup_iff.mpr h'

instance : IsTotal FsEntry (fun a b => b.path ≤ a.path) :=
  ⟨fun a b => le_total b.path a.path⟩

instance : IsTrans FsEntry (fun a b => b.path ≤ a.path) :=
  ⟨fun _ _ _ hab hbc => le_trans hbc hab⟩

/-- The second reset loop, run on a snapshot of directories listed in
descending path order that covers everything still under the root, removes
every entry under the root: processing children (lexicographically larger)
before their parents means each `rmdir` finds an empty directory. -/
lemma rmdirAll_clears (root : List String) :
    ∀ (L fs : List FsEntry), pathsNodup fs →
      List.Pairwise (fun a b => b.path ≤ a.path) L →
      pathsNodup L →
      (∀ x ∈ L, x.isDir = true) →
      (∀ x ∈ L, x ∈ fs) →
      (∀ x ∈ fs, strictlyUnder root x.path → x ∈ L) →
      (∀ x ∈ L, strictlyUnder root x.path) →
      ∀ e ∈ rmdirAll fs L, ¬ strictlyUnder root e.path := by
  intro L
  induction L with
  | nil =>
    intro fs _ _ _ _ _ hcov _ e he hud
    rw [rmdirAll] at he
    exact absurd (hcov e he hud) (List.not_mem_nil e)
  | cons d rest ih =>
    intro fs hnd hsorted hLnd hdirs hsubL hcov hunder
    have hdfs : d ∈ fs := hsubL d (List.mem_cons_self d rest)
    have hld : lookupPath fs d.path = some d := lookupPath_of_mem fs d hdfs hnd
    rw [rmdirAll_cons, hld]
    dsimp only
    rw [if_pos (hdirs d (List.mem_cons_self d rest))]
    have hnochild : fs.any (fun x => isUnderB d.path x.path) = false := by
      apply List.any_eq_false.mpr
      intro x hx hc
      have hxd : strictlyUnder d.path x.path := (isUnderB_iff _ _).mp hc
      have hxroot : strictlyUnder root x.path :=
        strictlyUnder_of_descend (hunder d (List.mem_cons_self d rest)) hxd
      rcases List.mem_cons.mp (hcov x hx hxroot) with rfl | hxrest
      · exact hxd.2 rfl
      · have hle : x.path ≤ d.path :=
          (List.pairwise_cons.mp hsorted).1 x hxrest
        have hlt : d.path < x.path := lt_of_strict_prefix hxd.1 (Ne.symm hxd.2)
        exact absurd hle (not_le_of_lt hlt)
    rw [if_neg (by simp [hnochild])]
    apply ih (removePath fs d.path)
      (pathsNodup_of_sublist (List.filter_sublist fs) hnd)
      (List.Pairwise.of_cons hsorted) (pathsNodup_tail hLnd)
      (fun x hx => hdirs x (List.mem_cons_of_mem d hx))
    · intro x hx
      refine List.mem_filter.mpr ⟨hsubL x (List.mem_cons_of_mem d hx), ?_⟩
      have hnot : d.path ∉ rest.map (·.path) := (List.nodup_cons.mp hLnd).1
      have hne : x.path ≠ d.path := by
        intro hEq
        exact hnot (hEq ▸ List.mem_map_of_mem (·.path) hx)
      simp [hne]
    · intro x hx hux
      have hxfs : x ∈ fs := (List.mem_filter.mp hx).1
      rcases List.mem_cons.mp (hcov x hxfs hux) with rfl | hxrest
      · exfalso
        have := (List.mem_filter.mp hx).2
        simp at this
      · exact hxrest
    · exact fun x hx => hunder x (List.mem_cons_of_mem d hx)

/-! ### C8 -/

/-- C8: the "Reset Index" handler removes every entry strictly under the
index path — files first, then the emptied directories, children before
parents because of the reverse sorted order — and never fails: not when the
index directory does not exist (the handler is skipped), and not when a
path met by `rmdir` is already gone or still non-empty (those `OSError`s
are caught; the only uncaught exception, `FileNotFoundError` in the unlink
loop, is proved unreachable because each snapshot path still exists when
reached).  The hypothesis says the file system is well formed: paths are
distinct, and the root directory entry is present whenever anything lies
under it. -/
theorem c8_reset_clears_index_path (fs : List FsEntry) (root : List String)
    (hnd : pathsNodup fs)
    (hroot : ∀ e ∈ fs, strictlyUnder root e.path → ∃ r ∈ fs, r.path = root) :
    (reset_index fs root).2 = true ∧
      ∀ e ∈ (reset_index fs root).1, ¬ strictlyUnder root e.path := by
  unfold reset_index
  cases hl : lookupPath fs root with
  | none =>
    refine ⟨rfl, ?_⟩
    intro e he hud
    obtain ⟨r, hr, hrp⟩ := hroot e he hud
    have := List.find?_eq_none.mp hl r hr
    simp [hrp] at this
  | some r0 =>
    rw [unlinkAll_glob fs root hnd]
    refine ⟨rfl, ?_⟩
    dsimp only
    apply rmdirAll_clears root
      (sortDescending (glob (fs.filter fun x =>
        x.isDir || !(isUnderB root x.path)) root))
      (fs.filter fun x => x.isDir || !(isUnderB root x.path))
      (pathsNodup_of_sublist (List.filter_sublist fs) hnd)
      (List.sorted_insertionSort _ _)
    · exact pathsNodup_sortDescending
        (pathsNodup_of_sublist (List.filter_sublist _)
          (pathsNodup_of_sublist (List.filter_sublist fs) hnd))
    · intro x hx
      have hxg := (List.perm_insertionSort _ _).mem_iff.mp hx
      have hxf := (List.mem_filter.mp hxg).1
      have hu := (List.mem_filter.mp hxg).2
      have := (List.mem_filter.mp hxf).2
      rw [hu] at this
      simpa using this
    · intro x hx
      exact (List.mem_filter.mp
        ((List.perm_insertionSort _ _).mem_iff.mp hx)).1
    · intro x hx hux
      apply (List.perm_insertionSort _ _).mem_iff.mpr
      exact List.mem_filter.mpr ⟨hx, (isUnderB_iff _ _).mpr hux⟩
    · intro x hx
      exact (isUnderB_iff _ _).mp
        (List.mem_filter.mp ((List.perm_insertionSort _ _).mem_iff.mp hx)).2

/-- C8, witness: a concrete index tree (root directory, one index file, a
nested directory with a file, and an unrelated sibling) is fully cleared
and the reset reports success. -/
theorem c8_reset_clears_index_path_witness :
    (reset_index
        [⟨["idx"], true⟩, ⟨["idx", "index.faiss"], false⟩,
         ⟨["idx", "sub"], true⟩, ⟨["idx", "sub", "f.bin"], false⟩,
         ⟨["other"], false⟩] ["idx"]).2 = true ∧
      ∀ e ∈ (reset_index
          [⟨["idx"], true⟩, ⟨["idx", "index.faiss"], false⟩,
           ⟨["idx", "sub"], true⟩, ⟨["idx", "sub", "f.bin"], false⟩,
           ⟨["other"], false⟩] ["idx"]).1,
        ¬ strictlyUnder ["idx"] e.path :=
  c8_reset_clears_index_path
    [⟨["idx"], true⟩, ⟨["idx", "index.faiss"], false⟩,
     ⟨["idx", "sub"], true⟩, ⟨["idx", "sub", "f.bin"], false⟩,
     ⟨["other"], false⟩] ["idx"] (by unfold pathsNodup; decide) (by decide)

end DRAgent
